import Mathlib

/-!
Verification development for the `MergeableCollection` container
(`MergeableCollection.h` / `MergeableCollection.cxx`): a hierarchical,
multi-key store of mergeable statistical objects, with a merge engine,
pattern queries, a two-level iterator and maintenance operations.

The embedding is shallow.  Identifiers (ROOT `TString`) are modelled as
lists of characters; the store map (`TMap` of `THashList`) is modelled as
an insertion-ordered association list from key strings to lists of
payloads; payloads (ROOT `TObject` descendants) are modelled by their
observable attributes: object name, concrete class name, whether the class
provides a `Merge(TCollection*)` method, and an abstract accumulated
state.  The payload-internal merge arithmetic is outside the specified
core; the reflective `Merge(TCollection*)` invocation is modelled as
combining the accumulated state.  The `fMessages` diagnostic side-log and
ROOT-I/O concerns (`fMapVersion` legacy-key remapping, `SetDirectory`)
are elided: they do not affect the results of any modelled operation.
-/

/-- Character strings, modelled as lists of characters (ROOT `TString`). -/
abbrev Str := List Char

/-- Literal helper: a Lean string literal as a `Str`. -/
def str (s : String) : Str := s.data

/-- `TString::CountChar`: number of occurrences of a character. -/
def countChar (s : Str) (c : Char) : Nat := s.count c

/-- Fuel-driven worker for `replaceAll`; the fuel starts at the length of
the string, which bounds the recursion depth (each step consumes at least
one character of the input). -/
def replaceAllFuel (pat rep : Str) : Nat → Str → Str
  | 0, s => s
  | _ + 1, [] => []
  | fuel + 1, a :: rest =>
    if !pat.isEmpty && pat.isPrefixOf (a :: rest) then
      rep ++ replaceAllFuel pat rep fuel ((a :: rest).drop pat.length)
    else
      a :: replaceAllFuel pat rep fuel rest

/-- `TString::ReplaceAll`: replace every occurrence of `pat` by `rep`,
scanning left to right, non-overlapping, without rescanning the
replacement text. -/
def replaceAll (pat rep s : Str) : Str := replaceAllFuel pat rep s.length s

/-- Split a string at a delimiter character (every occurrence, keeping
empty pieces). Worker for `tokenizeChar`. -/
def splitChar (d : Char) : Str → List Str
  | [] => [[]]
  | a :: rest =>
    let r := splitChar d rest
    if a = d then [] :: r
    else match r with
      | [] => [[a]]
      | piece :: t => (a :: piece) :: t

/-- `TString::Tokenize`: split at a delimiter, discarding empty tokens
(consecutive delimiters yield no token). -/
def tokenizeChar (d : Char) (s : Str) : List Str :=
  (splitChar d s).filter (fun p => !p.isEmpty)

/-- A stored payload (a ROOT `TObject` descendant), modelled by its
observable attributes: `name` (`GetName()`), `ptype` (the concrete class,
`IsA()`), `hasMerge` (whether the class has a `Merge(TCollection*)`
method), and `data`, the abstract accumulated state that an in-place
merge combines. -/
structure Payload where
  name : Str
  ptype : Str
  hasMerge : Bool
  data : Int
deriving DecidableEq, Repr

/-- `TObject::Clone`: a value copy of the payload (the clone is a new,
independently owned object with the same observable attributes). -/
def Payload.clone (p : Payload) : Payload := p

/-- Immediate base class in the ROOT hierarchy, restricted to the classes
this file manipulates (`TClass::GetBase` information). -/
def rootParent (c : Str) : Option Str :=
  if c = str "TH1F" then some (str "TH1")
  else if c = str "TH2F" then some (str "TH2")
  else if c = str "TH2" then some (str "TH1")
  else if c = str "TProfile" then some (str "TH1")
  else if c = str "TH1" then some (str "TObject")
  else if c = str "TGraph" then some (str "TObject")
  else none

/-- Fuel-driven worker for `inheritsFrom`; the hierarchy above has depth
at most four, so any fuel of at least five is exact. -/
def inheritsFromAux : Nat → Str → Str → Bool
  | 0, _, _ => false
  | fuel + 1, c, target =>
    c == target ||
      match rootParent c with
      | some p => inheritsFromAux fuel p target
      | none => false

/-- `TClass::InheritsFrom`: whether class `c` is `target` or derives from
it, over the class table of `rootParent`. -/
def inheritsFrom (c target : Str) : Bool := inheritsFromAux 5 c target

/-- The value of `anyObject->IsA()->Class()`.  `TClass::Class()` is a
static member function, so calling it through the `TClass*` returned by
`IsA()` ignores the receiver entirely and returns the one `TClass`
describing the class `TClass` itself — the same value for every object.
The source compares exactly this expression on both sides. -/
def tclassStaticClass (_o : Payload) : Nat := 0

/-- `MergeableCollection::MergeObject(baseObject, objToAdd)`: add
`objToAdd` into `baseObject` in place via the reflective
`Merge(TCollection*)` call.  Returns the (possibly updated) base object
and the `Bool_t` result.  The first guard compares
`baseObject->IsA()->Class() != objToAdd->IsA()->Class()` — see
`tclassStaticClass`. -/
def MergeObject (baseObject objToAdd : Payload) : Payload × Bool :=
  if tclassStaticClass baseObject ≠ tclassStaticClass objToAdd then
    (baseObject, false)
  else if !(inheritsFrom baseObject.ptype (str "TObject") && baseObject.hasMerge) then
    (baseObject, false)
  else
    ({ baseObject with data := baseObject.data + objToAdd.data }, true)

/-- The store (`MergeableCollection`): its `fMap` member, a `TMap` owned
by the collection, mapping a key-path string (a `TObjString`) to the
`THashList` of payloads stored at that path.  `fMap` is lazily created
(`0x0` until first use), hence the `Option`; both layers preserve
insertion order for iteration, hence the association list. -/
structure Store where
  fMap : Option (List (Str × List Payload))
deriving DecidableEq, Repr

/-- The entries of `Map()`: a null `fMap` behaves as an empty map for
lookups (and is materialised as an empty map by `Map()` on first use). -/
def mapOf (s : Store) : List (Str × List Payload) := s.fMap.getD []

/-- `TMap::GetValue(key)`: the value of the first entry whose key string
equals `key` (hash lookup with string equality; with duplicate keys the
first inserted entry wins). -/
def lookupKey (m : List (Str × List Payload)) (k : Str) : Option (List Payload) :=
  (m.find? (fun kv => kv.1 == k)).map (fun kv => kv.2)

/-- `THashList::FindObject(name)`: the first object of the list whose
`GetName()` equals `name`. -/
def findByName (l : List Payload) (nm : Str) : Option Payload :=
  l.find? (fun o => o.name == nm)

/-- Replace, in place, the value of the first entry with key `k` (models
mutation of the `THashList` obtained from `GetValue`). -/
def updateKey (m : List (Str × List Payload)) (k : Str) (v : List Payload) :
    List (Str × List Payload) :=
  match m with
  | [] => []
  | kv :: t => if kv.1 == k then (kv.1, v) :: t else kv :: updateKey t k v

/-- `MergeableCollection::correctIdentifier`: insure the identifier has
the right number of slashes — on a non-null string, append a trailing `/`
if missing, prepend a leading `/` if missing, then collapse `//`. -/
def correctIdentifier (s : Str) : Str :=
  if s = [] then s
  else
    let s1 := if s.getLast? = some '/' then s else s ++ ['/']
    let s2 := if s1.head? = some '/' then s1 else '/' :: s1
    replaceAll (str "//") (str "/") s2

/-- Positions of the separator character in the identifier, scanning left
to right from offset `i` (the position-collecting `while` loop of
`internalDecode`). -/
def slashPosAux : Str → Nat → List Nat
  | [], _ => []
  | c :: t, i => if c = '/' then i :: slashPosAux t (i + 1) else slashPosAux t (i + 1)

/-- All positions of `/` in the identifier, in increasing order. -/
def slashPositions (s : Str) : List Nat := slashPosAux s 0

/-- `MergeableCollection::internalDecode(identifier, index)`: extract the
`index`-th element of `/key1/.../keyN/objectName`; `index = -1` is the
object name (the piece after the last slash).  A non-empty identifier not
starting with `/` is malformed (logged, returns the empty string); an
index at or beyond the number of keys is out of range (logged, returns
the empty string).  `nkeys` is the number of slashes minus one, computed
in unsigned arithmetic and converted to `Int_t` (so no slashes gives
`-1`); the `index < 0` branch reads `splitIndex.back()`, which for an
identifier with no slash at all is undefined in the source and never
reached through the public accessors — the model returns the empty
string there. -/
def internalDecode (identifier : Str) (index : Int) : Str :=
  if identifier ≠ [] ∧ identifier.head? ≠ some '/' then []
  else if index ≥ ((slashPositions identifier).length : Int) - 1 then []
  else if index < 0 then
    match (slashPositions identifier).getLast? with
    | some p => identifier.drop (p + 1)
    | none => []
  else
    (identifier.drop ((slashPositions identifier).getD index.toNat 0 + 1)).take
      ((slashPositions identifier).getD (index.toNat + 1) 0
        - (slashPositions identifier).getD index.toNat 0 - 1)

/-- The `for` loop of `getIdentifier`: concatenation of `/` followed by
the `i`-th decoded key, for `i` below the bound. -/
def buildId (full : Str) : Nat → Str
  | 0 => []
  | k + 1 => buildId full k ++ '/' :: internalDecode full k

/-- `MergeableCollection::getIdentifier(fullIdentifier)`: the key-path
part, i.e. all segments but the last, re-joined with separators and a
trailing `/`.  The bound is `CountChar('/') - 1` as an `Int_t` (so a
slashless identifier yields just `/`). -/
def getIdentifier (full : Str) : Str :=
  let n : Int := (countChar full '/' : Int) - 1
  buildId full n.toNat ++ ['/']

/-- `MergeableCollection::getObjectName(fullIdentifier)`: the last
segment (decode at index `-1`). -/
def getObjectName (full : Str) : Str := internalDecode full (-1)

/-- `MergeableCollection::getKey(identifier, index, idContainsObjName)`:
decode the `index`-th key; when the identifier carries no object name, a
`/dummy` tail is appended first so that the same decoder applies. -/
def getKey (identifier : Str) (index : Int) (idContainsObjName : Bool) : Str :=
  if !idContainsObjName then internalDecode (identifier ++ str "/dummy") index
  else internalDecode identifier index

/-- The identifier normalisation performed by the two-argument
`getObject(identifier, objectName)`: on a non-null identifier, prepend a
leading `/` if missing, then append a trailing `/` if missing. -/
def normalizeIdent (id : Str) : Str :=
  if id = [] then id
  else
    let a := if id.head? = some '/' then id else '/' :: id
    if a.getLast? = some '/' then a else a ++ ['/']

/-- `MergeableCollection::internalObject(identifier, objectName)`: map
lookup then name lookup; misses record a pending diagnostic message
(side-log elided) and return null. -/
def internalObject (s : Store) (identifier objectName : Str) : Option Payload :=
  match s.fMap with
  | none => none
  | some m =>
    match lookupKey m identifier with
    | none => none
    | some hlist => findByName hlist objectName

/-- `MergeableCollection::getObject(identifier, objectName)`. -/
def getObjectAt (s : Store) (identifier objectName : Str) : Option Payload :=
  internalObject s (normalizeIdent identifier) objectName

/-- `MergeableCollection::getObject(fullIdentifier)`: a slashless
identifier is a top-level object name; otherwise split into key-path and
object name. -/
def getObject (s : Store) (full : Str) : Option Payload :=
  if countChar full '/' = 0 then getObjectAt s [] full
  else getObjectAt s (getIdentifier full) (getObjectName full)

/-- `MergeableCollection::internalAdopt(identifier, obj)`: reject a null
object; look up the hash list of the raw identifier, creating it (and its
map entry) if absent; reject (log, return `kFALSE`) when an object of the
same name is already there; otherwise append.  The mergeability check of
the source only emits an error message and does not abort, and
`SetDirectory(0)` on histograms has no observable effect here; both are
elided. -/
def internalAdopt (s : Store) (identifier : Str) (obj : Option Payload) :
    Store × Bool :=
  match obj with
  | none => (s, false)
  | some o =>
    let m := mapOf s
    match lookupKey m identifier with
    | none => (⟨some (m ++ [(identifier, [o])])⟩, true)
    | some hlist =>
      if (findByName hlist o.name).isSome then (⟨some m⟩, false)
      else (⟨some (updateKey m identifier (hlist ++ [o]))⟩, true)

/-- `MergeableCollection::adopt(identifier, obj)`: canonicalise the
identifier, then adopt. -/
def adopt (s : Store) (identifier : Str) (obj : Option Payload) : Store × Bool :=
  internalAdopt s (correctIdentifier identifier) obj

/-- `MergeableCollection::adopt(obj)`: adopt at top level (empty key). -/
def adoptRoot (s : Store) (obj : Option Payload) : Store × Bool :=
  internalAdopt s [] obj

/-- `MergeableCollection::numberOfKeys`: the size of `fMap` (zero when
null). -/
def numberOfKeys (s : Store) : Nat :=
  match s.fMap with
  | none => 0
  | some m => m.length

/-- `MergeableCollection::prune(identifier)`: delete every map entry
whose key begins with `identifier` (whole collections included); return
the number of map entries removed (each `DeleteEntry` on a present key
succeeds). -/
def prune (s : Store) (identifier : Str) : Store × Nat :=
  let m := mapOf s
  let kept := m.filter (fun kv => !identifier.isPrefixOf kv.1)
  (⟨some kept⟩, (m.filter (fun kv => identifier.isPrefixOf kv.1)).length)

/-- The key under which `attach` re-registers a source entry:
`Form("/%s%s", identifier, key)` with doubled separators collapsed. -/
def attachKey (identifier k : Str) : Str :=
  replaceAll (str "//") (str "/") ('/' :: (identifier ++ k))

/-- The re-registration loop of `attach`: for each key of the source map,
add to the destination map an entry with the rewritten key and the very
hash list obtained from the source map (`GetValue` on the source). -/
def attachAdd (dest mc : Store) (identifier : Str) : Store :=
  ⟨some ((mc.fMap.getD []).foldl
    (fun m kv => m ++ [(attachKey identifier kv.1, (lookupKey (mapOf mc) kv.1).getD [])])
    (mapOf dest))⟩

/-- `MergeableCollection::attach(mc, identifier, pruneFirstIfAlreadyExists)`:
if an entry already exists at the raw `identifier`, fail unless pruning is
allowed (and fail if the prune removes nothing); then graft every source
entry under the rewritten key.  The source collection `mc` is only read:
the middle component of the result is the source store after the call. -/
def attach (dest mc : Store) (identifier : Str) (pruneFirstIfAlreadyExists : Bool) :
    Store × Store × Bool :=
  match lookupKey (mapOf dest) identifier with
  | some _ =>
    if !pruneFirstIfAlreadyExists then (dest, mc, false)
    else
      let pr := prune dest identifier
      if pr.2 = 0 then (pr.1, mc, false)
      else (attachAdd pr.1 mc identifier, mc, true)
  | none => (attachAdd dest mc identifier, mc, true)

/-- Substring test (`TString::Contains`): `pat` occurs somewhere in `s`
(the empty pattern occurs everywhere). -/
def containsStr (s pat : Str) : Bool :=
  match s with
  | [] => pat.isEmpty
  | _ :: t => pat.isPrefixOf s || containsStr t pat

/-- `MergeableCollection::project(identifier)`: null map gives a null
result; otherwise build a fresh collection and, for every map key that
contains `identifier` as a substring, clone the objects of the list found
at the key equal to the argument `identifier` (`Map()->GetValue(identifier)`,
which is null — hence no objects — unless `identifier` itself is a key),
re-keyed by erasing every occurrence of `identifier` from the matching
key (`ReplaceAll`), with a bare `/` collapsed to the empty key. -/
def project (s : Store) (identifier : Str) : Option Store :=
  match s.fMap with
  | none => none
  | some m =>
    some (m.foldl
      (fun acc kv =>
        if !containsStr kv.1 identifier then acc
        else
          ((lookupKey m identifier).getD []).foldl
            (fun acc obj =>
              let newkey := replaceAll identifier [] kv.1
              let newkey := if newkey = str "/" then [] else newkey
              (internalAdopt acc newkey (some obj.clone)).1)
            acc)
      ⟨none⟩)

/-- `THashList::Remove(obj)`: remove the (first) element that is the
given object; return the removed object or null. -/
def removeObjFromList (l : List Payload) (obj : Payload) :
    List Payload × Option Payload :=
  match l with
  | [] => ([], none)
  | x :: t =>
    if x = obj then (t, some obj)
    else
      let r := removeObjFromList t obj
      (x :: r.1, r.2)

/-- `MergeableCollection::remove(fullIdentifier)`: locate the hash list
of the key-path part, locate the object, remove it from the hash list
(the map entry itself is never removed, even when the list becomes
empty); return the removed object, or null when any step fails. -/
def remove (s : Store) (full : Str) : Store × Option Payload :=
  let identifier := getIdentifier full
  let m := mapOf s
  match lookupKey m identifier with
  | none => (⟨some m⟩, none)
  | some hlist =>
    match getObject ⟨some m⟩ full with
    | none => (⟨some m⟩, none)
    | some obj =>
      let r := removeObjFromList hlist obj
      match r.2 with
      | none => (⟨some m⟩, none)
      | some rm => (⟨some (updateKey m identifier r.1)⟩, some rm)

/-- The alternation-group matrix of a `getSum` pattern: tokenize at `/`,
then tokenize each piece at `,`. -/
def keyMatrixOf (idPattern : Str) : List (List Str) :=
  (tokenizeChar '/' idPattern).map (tokenizeChar ',')

/-- The key-level check of `getSum`: for every index below
`keyMatrix.GetEntries() - 1`, the decoded key of the identifier at that
index must equal (string equality) some member of the corresponding
group. -/
def keyLevelOK (keyMatrix : List (List Str)) (identifier : Str) : Bool :=
  (List.range (keyMatrix.length - 1)).all
    (fun ikey => (keyMatrix.getD ikey []).any
      (fun subKey => subKey == getKey identifier (ikey : Int) false))

/-- The object-name check of `getSum`: membership in the last group
(`keyMatrix.Last()`; an empty matrix has a null last group and matches
nothing). -/
def nameOK (keyMatrix : List (List Str)) (nm : Str) : Bool :=
  ((keyMatrix.getLast?).getD []).any (fun subKey => subKey == nm)

/-- The inner object loop of `getSum` over one hash list, threading the
accumulator: a first match is cloned, later matches are merged in via
`MergeObject`. -/
def getSumInner (keyMatrix : List (List Str)) :
    List Payload → Option Payload → Option Payload
  | [], sumObject => sumObject
  | obj :: t, sumObject =>
    getSumInner keyMatrix t
      (if nameOK keyMatrix obj.name then
        match sumObject with
        | none => some obj.clone
        | some acc => some (MergeObject acc obj).1
      else sumObject)

/-- The outer identifier loop of `getSum` over the map entries; an
identifier failing the key-level check is skipped, otherwise the hash
list found for it (`GetValue`) is folded in. -/
def getSumAux (s : Store) (keyMatrix : List (List Str)) :
    List (Str × List Payload) → Option Payload → Option Payload
  | [], sumObject => sumObject
  | kv :: t, sumObject =>
    getSumAux s keyMatrix t
      (if keyLevelOK keyMatrix kv.1 then
        getSumInner keyMatrix ((lookupKey (mapOf s) kv.1).getD []) sumObject
      else sumObject)

/-- `MergeableCollection::getSum(idPattern)`: sum the objects matching an
OR-pattern `/key1_1,key1_2,../key2_1,../../name_1,name_2..`. -/
def getSum (s : Store) (idPattern : Str) : Option Payload :=
  getSumAux s (keyMatrixOf idPattern) (mapOf s) none

/-- The key-path at which `getObject(fullIdentifier)` resolves its
lookup. -/
def resolveKey (full : Str) : Str :=
  if countChar full '/' = 0 then [] else normalizeIdent (getIdentifier full)

/-- The object name under which `getObject(fullIdentifier)` resolves its
lookup. -/
def resolveName (full : Str) : Str :=
  if countChar full '/' = 0 then full else getObjectName full

/-- Replace, in the list, the first payload carrying the given name
(models the in-place mutation of the object found by `FindObject`). -/
def replaceFirstByName (l : List Payload) (nm : Str) (p : Payload) : List Payload :=
  match l with
  | [] => []
  | x :: t => if x.name == nm then p :: t else x :: replaceFirstByName t nm p

/-- In-place update of the object that `getObject(full)` found: the
stored payload at the resolved (key, name) becomes `newp`. -/
def replaceStored (d : Store) (full : Str) (newp : Payload) : Store :=
  let k := resolveKey full
  match lookupKey (mapOf d) k with
  | none => d
  | some l => ⟨some (updateKey (mapOf d) k (replaceFirstByName l (resolveName full) newp))⟩

/-- One (identifier, object) step of `Merge`: the full identifier is the
source key concatenated with the object name; if the destination does not
hold it yet, a clone is adopted at the source key (canonicalised by
`adopt`; a failed adoption is only logged); otherwise the existing
destination object absorbs the source object via `MergeObject`. -/
def mergeOnePair (d : Store) (identifier : Str) (obj : Payload) : Store :=
  let newid := identifier ++ obj.name
  match getObject d newid with
  | none => (adopt d identifier (some obj.clone)).1
  | some thisObject => replaceStored d newid (MergeObject thisObject obj).1

/-- Merging one source collection into the destination: iterate the
source map keys and, per key, the hash list found for it (`GetValue` on
the source map). -/
def mergeOneCollection (d : Store) (src : Store) : Store :=
  (src.fMap.getD []).foldl
    (fun d kv =>
      ((lookupKey (src.fMap.getD []) kv.1).getD []).foldl
        (fun d o => mergeOnePair d kv.1 o) d)
    d

/-- `MergeableCollection::Merge(list)`: an empty list returns 1; each
source collection in order is counted and folded into the destination;
the result is the count plus one (the destination itself).  The list
elements here are stores, so the `dynamic_cast` guard of the source
always passes; a null `TCollection*` argument (which returns 0) has no
counterpart for a Lean list. -/
def Merge (dest : Store) (list : List Store) : Store × Int :=
  if list.isEmpty then (dest, 1)
  else
    let r := list.foldl
      (fun (acc : Store × Int) mc => (mergeOneCollection acc.1 mc, acc.2 + 1))
      (dest, 0)
    (r.1, r.2 + 1)

/-- Upper-casing of the action token (`TString::ToUpper`). -/
def toUpperStr (s : Str) : Str := s.map Char.toUpper

/-- The read-time derived view (`ProjectionX/Y`, `ProfileX/Y`) applied to
a 2-D histogram.  The specification places the histogram-specific
derived-view transform outside the core ("domain formatting"); the model
keeps the stored payload as the result, which is all any modelled claim
observes. -/
def axisProjection (p : Payload) (_action : Str) : Payload := p

/-- Result type of the shortcut accessors: `none` marks the execution
reaching a dereference of a null object pointer (undefined behaviour in
the source); `some r` is a normal return with result `r` (`some none`
being a null — "absent" — return value). -/
abbrev AccessorResult := Option (Option Payload)

/-- `MergeableCollection::histoWithAction(identifier, o, action)`: a null
object is checked and returns null; a non-histogram is logged and returns
null; a 2-D histogram with a projection action yields the derived view;
anything else is returned as is. -/
def histoWithAction (o : Option Payload) (action : Str) : AccessorResult :=
  match o with
  | none => some none
  | some obj =>
    if !inheritsFrom obj.ptype (str "TH1") then some none
    else if inheritsFrom obj.ptype (str "TH2") &&
        (action == str "PX" || action == str "PY" ||
         action == str "PFX" || action == str "PFY") then
      some (some (axisProjection obj action))
    else some (some obj)

/-- `MergeableCollection::histo(fullIdentifier)`: split an optional
`:action` suffix, look the object up (slash count decides between the
top-level and the decomposed lookup), then convert via
`histoWithAction` — which null-checks the lookup result. -/
def histo (s : Store) (full : Str) : AccessorResult :=
  let hasColon := full.contains ':'
  let parts := tokenizeChar ':' full
  let fullIdWithoutAction := if hasColon then parts.getD 0 [] else full
  let action :=
    if hasColon && parts.length > 1 then toUpperStr (parts.getD 1 []) else []
  let nslashes := countChar full '/'
  let o :=
    if nslashes = 0 then getObjectAt s [] fullIdWithoutAction
    else getObjectAt s (getIdentifier fullIdWithoutAction)
      (getObjectName fullIdWithoutAction)
  histoWithAction o action

/-- `MergeableCollection::h2(fullIdentifier)`: grab a 2-D histogram.  The
lookup result is dereferenced (`o->IsA()`) with no null check: an absent
object makes the execution undefined (`none`). -/
def h2 (s : Store) (full : Str) : AccessorResult :=
  match getObject s full with
  | none => none
  | some o =>
    if inheritsFrom o.ptype (str "TH2") then some (some o) else some none

/-- `MergeableCollection::prof(fullIdentifier)`: grab a `TProfile`.  Like
`h2`, the lookup result is dereferenced with no null check. -/
def prof (s : Store) (full : Str) : AccessorResult :=
  match getObject s full with
  | none => none
  | some o =>
    if inheritsFrom o.ptype (str "TProfile") then some (some o) else some none

/-- A ROOT iterator pointer as the iterator object stores it: null
(`0x0`), live (pointing to an iterator whose remaining elements are
`val`), or dangling — deleted but not reset to null, so the source's
null checks see a non-null pointer while dereferencing it is undefined. -/
inductive PtrState (α : Type) where
  | null : PtrState α
  | live (val : α) : PtrState α
  | dangling : PtrState α
deriving DecidableEq, Repr

/-- The effect of `delete p` on the stored pointer value `p`: deleting a
null pointer is a no-op and the variable stays null; otherwise the
variable still holds the freed address. -/
def PtrState.deleted : PtrState α → PtrState α
  | .null => .null
  | _ => .dangling

/-- `MergeableCollectionIterator`: cursor over the map (remaining keys)
and cursor over the current hash list (remaining objects), plus the
direction fixed at construction.  A fresh iterator has both pointers
null. -/
structure MCIterator where
  fMapIterator : PtrState (List Str)
  fHashListIterator : PtrState (List Payload)
  fDirection : Bool
deriving DecidableEq, Repr

/-- The key sequence produced by `fMap->MakeIterator(direction)`:
insertion order, or reversed. -/
def outerKeys (s : Store) (direction : Bool) : List Str :=
  let ks := (mapOf s).map (fun kv => kv.1)
  if direction then ks else ks.reverse

/-- The object sequence produced by `list->MakeIterator(direction)`. -/
def innerObjs (l : List Payload) (direction : Bool) : List Payload :=
  if direction then l else l.reverse

/-- `MergeableCollectionIterator::Reset`: `delete` both iterators —
without nulling the member pointers. -/
def Reset (it : MCIterator) : MCIterator :=
  { it with
    fHashListIterator := it.fHashListIterator.deleted
    fMapIterator := it.fMapIterator.deleted }

/-- `MergeableCollectionIterator::Next`, fuel-driven worker.  One source
call may recurse (after exhausting a hash list, and after creating the
map iterator); each recursion either consumes a map key or performs one
of the two constant set-up steps, so any fuel of at least
`2 * (number of keys) + 4` is exact; `Next` below supplies it.  Result:
`none` marks a dereference of a dangling iterator pointer (undefined
behaviour in the source); `some (it, r)` is a normal return of `r` with
iterator state `it`. -/
def NextF (s : Store) : Nat → MCIterator → Option (MCIterator × Option Payload)
  | 0, _ => none
  | fuel + 1, it =>
    match it.fHashListIterator with
    | .dangling => none
    | .live (o :: rest) =>
      some ({ it with fHashListIterator := .live rest }, some o)
    | .live [] =>
      NextF s fuel { it with fHashListIterator := .null }
    | .null =>
      match it.fMapIterator with
      | .dangling => none
      | .null =>
        NextF s fuel { it with fMapIterator := .live (outerKeys s it.fDirection) }
      | .live [] => some (it, none)
      | .live (k :: restKeys) =>
        match lookupKey (mapOf s) k with
        | none => some ({ it with fMapIterator := .live restKeys }, none)
        | some hlist =>
          NextF s fuel
            { it with
              fMapIterator := .live restKeys
              fHashListIterator := .live (innerObjs hlist it.fDirection) }

/-- `MergeableCollectionIterator::Next`: advance to the next object,
moving to the next key when the current hash list is exhausted; a
consumed map iterator keeps answering "no more elements". -/
def Next (s : Store) (it : MCIterator) : Option (MCIterator × Option Payload) :=
  NextF s (2 * (mapOf s).length + 4) it

/-- The segments of a key joined with the separator (no leading or
trailing separator): the textual input that `correctIdentifier`
canonicalises. -/
def joinSegments : List Str → Str
  | [] => []
  | [s] => s
  | s :: t => s ++ '/' :: joinSegments t

/-- A valid key segment: non-empty and containing no separator. -/
def validSegment (s : Str) : Prop := s ≠ [] ∧ '/' ∉ s

instance : DecidablePred validSegment := fun s =>
  decidable_of_iff (s ≠ [] ∧ '/' ∉ s) Iff.rfl

/-- Specification-side matching list for `getSum` as the source computes
it: payloads of every map entry whose identifier passes the key-level
check, filtered by the object-name check, in traversal order. -/
def matchedPayloadsAux (s : Store) (keyMatrix : List (List Str)) :
    List (Str × List Payload) → List Payload
  | [] => []
  | kv :: t =>
    (if keyLevelOK keyMatrix kv.1 then
      ((lookupKey (mapOf s) kv.1).getD []).filter (fun o => nameOK keyMatrix o.name)
    else []) ++ matchedPayloadsAux s keyMatrix t

/-- The payloads `getSum` combines, in order. -/
def matchedPayloads (s : Store) (idPattern : Str) : List Payload :=
  matchedPayloadsAux s (keyMatrixOf idPattern) (mapOf s)

/-- Specification-side (amended) summation: no match is absent; otherwise
the first match is cloned and the remaining matches are folded in via the
merge capability. -/
def sumMatchSpec (s : Store) (idPattern : Str) : Option Payload :=
  match matchedPayloads s idPattern with
  | [] => none
  | x :: r => some (r.foldl (fun acc o => (MergeObject acc o).1) x.clone)

/-- Specification-side definition of the claimed matching predicate: an
entry matches iff EVERY key level of its path is a member of the
corresponding alternation group — so the path must have exactly one
level per key group (the groups being all but the final, object-name
group), each level a member of its group. -/
def specLevelsMatch (keyMatrix : List (List Str)) (identifier : Str) : Bool :=
  let segs := tokenizeChar '/' identifier
  (segs.length + 1 == keyMatrix.length) &&
    (List.range segs.length).all
      (fun i => (keyMatrix.getD i []).any (fun g => g == segs.getD i []))

/-- Specification-side definition: the matching list under the claimed
every-level semantics. -/
def specMatchedAux (s : Store) (keyMatrix : List (List Str)) :
    List (Str × List Payload) → List Payload
  | [] => []
  | kv :: t =>
    (if specLevelsMatch keyMatrix kv.1 then
      ((lookupKey (mapOf s) kv.1).getD []).filter (fun o => nameOK keyMatrix o.name)
    else []) ++ specMatchedAux s keyMatrix t

/-- Specification-side definition: the summation under the claimed
every-level matching semantics. -/
def sumSpecOriginal (s : Store) (idPattern : Str) : Option Payload :=
  match specMatchedAux s (keyMatrixOf idPattern) (mapOf s) with
  | [] => none
  | x :: r => some (r.foldl (fun acc o => (MergeObject acc o).1) x.clone)


/-- The accumulator-threading combination step of `getSum`, abstracted
over a list of already-selected payloads: a first payload meets an empty
accumulator and is cloned, later ones are merged in. -/
def combineSum : Option Payload → List Payload → Option Payload
  | so, [] => so
  | so, o :: t =>
    combineSum
      (match so with
        | none => some o.clone
        | some acc => some (MergeObject acc o).1) t

/-- No two adjacent characters are both separators. -/
def noDoubleSlash : Str → Bool
  | [] => true
  | [_] => true
  | a :: b :: t => !(a == '/' && b == '/') && noDoubleSlash (b :: t)

/-- Concrete destination payload for the merge type-mismatch scenario. -/
def c1Base : Payload := ⟨str "h", str "TH1F", true, 5⟩

/-- Concrete source payload of a different concrete type. -/
def c1ToAdd : Payload := ⟨str "h", str "TGraph", true, 3⟩

/-- Concrete payload stored in the attach scenarios. -/
def c3Payload : Payload := ⟨str "h", str "TH1F", true, 1⟩

/-- Concrete source store for the attach scenarios. -/
def c3Src : Store := ⟨some [(str "/A/", [c3Payload])]⟩

/-- Concrete payload for the project scenario of the specification. -/
def c4Payload : Payload := ⟨str "name", str "TH1F", true, 1⟩

/-- Concrete store holding `/x/y/name`, the project scenario of the
specification. -/
def c4Store : Store := ⟨some [(str "/x/y/", [c4Payload])]⟩

/-- First adopted payload of the adopt-conflict scenario. -/
def c6P1 : Payload := ⟨str "h", str "TH1F", true, 1⟩

/-- Second payload, same name, of the adopt-conflict scenario. -/
def c6P2 : Payload := ⟨str "h", str "TH2F", true, 2⟩

/-- Map contents after the first adoption of the conflict scenario. -/
def c6Map : List (Str × List Payload) := [(str "/DET/", [c6P1])]

/-- Concrete payload for the remove scenarios. -/
def c7Payload : Payload := ⟨str "h", str "TH1F", true, 1⟩

/-- Store holding one top-level (root) object, adopted with no key. -/
def c7RootStore : Store := ⟨some [([], [c7Payload])]⟩

/-- Store holding one object at the path `/A/`. -/
def c7Store : Store := ⟨some [(str "/A/", [c7Payload])]⟩

/-- Concrete payload for the sum-pattern scenario. -/
def c8Payload : Payload := ⟨str "h", str "TH1F", true, 1⟩

/-- Store holding one object at the two-level path `/A/B/`. -/
def c8Store : Store := ⟨some [(str "/A/B/", [c8Payload])]⟩

/-- Concrete payload for the iterator scenario. -/
def c9Payload : Payload := ⟨str "h", str "TH1F", true, 1⟩

/-- Store holding one object at `/A/`, for the iterator scenario. -/
def c9Store : Store := ⟨some [(str "/A/", [c9Payload])]⟩

/-- A store with a materialised but empty map. -/
def c10Store : Store := ⟨some []⟩

/-- C1: the claim states that merging two stored payloads of different
concrete types fails non-fatally, leaving the destination payload
unchanged.  In the source the guard compares
`baseObject->IsA()->Class() != objToAdd->IsA()->Class()`: both sides are
the static `TClass::Class()` value, so the guard never fires.  At the
concrete mismatched pair below (a `TH1F` and a `TGraph` of the same
name) `MergeObject` reports success and the destination payload absorbs
the other payload's state instead of being left unchanged. -/
theorem mergeObject_type_mismatch_not_detected :
    c1Base.ptype ≠ c1ToAdd.ptype ∧
    MergeObject c1Base c1ToAdd = (⟨str "h", str "TH1F", true, 8⟩, true) := by
  decide

/-- The running count threaded by the fold of `Merge` grows by exactly
one per source store. -/
theorem merge_foldl_count (l : List Store) :
    ∀ (d : Store) (c : Int),
      (l.foldl (fun (acc : Store × Int) mc => (mergeOneCollection acc.1 mc, acc.2 + 1))
        (d, c)).2 = c + l.length := by
  induction l with
  | nil => intro d c; simp
  | cons a t ih =>
    intro d c
    simp only [List.foldl_cons]
    rw [ih]
    simp only [List.length_cons]
    push_cast
    ring

/-- C2: for every destination store and every list of N source
collections (N = 0 included), `Merge` returns N + 1 — each source is
counted once, regardless of per-pair failures, plus the base count of one
for the destination itself. -/
theorem merge_returns_sources_plus_one (dest : Store) (list : List Store) :
    (Merge dest list).2 = (list.length : Int) + 1 := by
  unfold Merge
  cases list with
  | nil => simp
  | cons a t =>
    simp only [List.isEmpty_cons, Bool.false_eq_true, if_false]
    rw [merge_foldl_count]
    ring

/-- C3, counterexample: the claim states that after a successful attach
the source store is left logically drained (entries moved out).  At the
concrete input below the attach succeeds, yet the source store still
holds its entry — `get` on the source still returns the payload — and
the grafted destination entry shares the very same collection. -/
theorem attach_source_not_drained_cex :
    (attach ⟨some []⟩ c3Src (str "x/") false).2.2 = true ∧
    (attach ⟨some []⟩ c3Src (str "x/") false).2.1 = c3Src ∧
    getObject (attach ⟨some []⟩ c3Src (str "x/") false).2.1 (str "/A/h")
      = some c3Payload := by
  decide

/-- C4: the claim (and the specification scenario) states that
`project("/x/")` on a store containing `/x/y/name` yields a store
containing `/y/name`.  The source reads the object list from
`Map()->GetValue(identifier)` — the key equal to the ARGUMENT — instead
of from each matching key, so at the scenario input it clones nothing:
the projected store is empty, and the claimed `/y/name` entry is absent. -/
theorem project_wrong_list_lookup :
    project c4Store (str "/x/") = some ⟨none⟩ ∧
    getObject c4Store (str "/x/y/name") = some c4Payload ∧
    getObject ⟨none⟩ (str "/y/name") = none := by
  decide

/-- C6: adopting a payload under a (path, name) already carrying an
object of that name fails — `kFALSE`, no mutation — and the first object
is still what a lookup of the same (path, name) returns. -/
theorem adopt_conflict_rejected (m : List (Str × List Payload)) (idf : Str)
    (o p1 : Payload) (l : List Payload)
    (hl : lookupKey m idf = some l) (hf : findByName l o.name = some p1) :
    internalAdopt ⟨some m⟩ idf (some o) = (⟨some m⟩, false) ∧
    internalObject ⟨some m⟩ idf o.name = some p1 := by
  constructor
  · unfold internalAdopt mapOf
    simp [hl, hf]
  · unfold internalObject
    simp [hl, hf]

/-- C6 witness, the specification scenario: `P1` named `h` sits at
`/DET/`; adopting `P2` of the same name there fails and `get` still
answers `P1`. -/
theorem adopt_conflict_rejected_witness :
    (lookupKey c6Map (str "/DET/") = some [c6P1] ∧
      findByName [c6P1] c6P2.name = some c6P1) ∧
    internalAdopt ⟨some c6Map⟩ (str "/DET/") (some c6P2) = (⟨some c6Map⟩, false) ∧
    internalObject ⟨some c6Map⟩ (str "/DET/") c6P2.name = some c6P1 :=
  ⟨⟨by decide, by decide⟩,
    adopt_conflict_rejected c6Map (str "/DET/") c6P2 c6P1 [c6P1] (by decide) (by decide)⟩

/-- C7, counterexample: the claim quantifies over every full identifier
present in the store.  A top-level object is stored under the empty key
and is present (`get` returns it), but `remove` derives the key `/` for
a slashless identifier, finds no hash list there, and removes nothing:
`remove` returns null and the object is still returned afterwards. -/
theorem remove_root_identifier_cex :
    getObject c7RootStore (str "h") = some c7Payload ∧
    (remove c7RootStore (str "h")).2 = none ∧
    getObject (remove c7RootStore (str "h")).1 (str "h") = some c7Payload := by
  decide

/-- C8, counterexample: the claim states an entry is summed iff EVERY
key level of its path is a member of the corresponding group.  For the
store holding `/A/B/h` and the pattern `A/h`, level 1 (`B`) has no
corresponding group, so under the claimed semantics nothing matches;
the source checks only the first `groupCount - 1` levels and does sum
the entry. -/
theorem getSum_every_level_claim_cex :
    getSum c8Store (str "A/h") = some c8Payload ∧
    sumSpecOriginal c8Store (str "A/h") = none := by
  decide

/-- C9: the claim states that `Reset` restarts the iterator so that the
next `Next` yields the first element again.  `Reset` deletes both member
iterators without nulling the pointers; from the mid-iteration state
reached after one `Next` (both pointers non-null), `Reset` leaves both
dangling, and the following `Next` — whose only guard is a null check —
dereferences the freed hash-list iterator instead of restarting. -/
theorem iterator_reset_use_after_free :
    Next c9Store ⟨.null, .null, true⟩
      = some (⟨.live [], .live [], true⟩, some c9Payload) ∧
    Reset ⟨.live [], .live [], true⟩ = (⟨.dangling, .dangling, true⟩ : MCIterator) ∧
    Next c9Store ⟨.dangling, .dangling, true⟩ = none := by
  decide

/-- C10: for a full identifier whose lookup is absent, `h2` and `prof`
dereference the null `getObject` result (`o->IsA()` with no null check)
— undefined behaviour — while `histo` routes through `histoWithAction`,
which checks the pointer and returns null safely. -/
theorem h2_prof_null_deref_histo_safe :
    getObject c10Store (str "/X/h") = none ∧
    h2 c10Store (str "/X/h") = none ∧
    prof c10Store (str "/X/h") = none ∧
    histo c10Store (str "/X/h") = some none := by
  decide

/-- Folding an append-one-entry step over a list appends the mapped
entries to the initial map. -/
theorem foldl_append_singleton {α β : Type} (f : α → β) (l : List α) :
    ∀ (init : List β),
      l.foldl (fun m kv => m ++ [f kv]) init = init ++ l.map f := by
  induction l with
  | nil => intro init; simp
  | cons a t ih =>
    intro init
    simp only [List.foldl_cons, List.map_cons]
    rw [ih]
    simp

/-- The re-registration loop of `attach` appends, to the destination
map, one entry per source key: the rewritten key paired with the list
`GetValue` finds for that key in the source. -/
theorem attachAdd_mapOf (dest mc : Store) (idf : Str) :
    mapOf (attachAdd dest mc idf)
      = mapOf dest
        ++ (mc.fMap.getD []).map
          (fun kv => (attachKey idf kv.1, (lookupKey (mapOf mc) kv.1).getD [])) := by
  unfold attachAdd
  rw [show mapOf ⟨some ((mc.fMap.getD []).foldl
        (fun m kv => m ++ [(attachKey idf kv.1, (lookupKey (mapOf mc) kv.1).getD [])])
        (mapOf dest))⟩
      = (mc.fMap.getD []).foldl
        (fun m kv => m ++ [(attachKey idf kv.1, (lookupKey (mapOf mc) kv.1).getD [])])
        (mapOf dest) from rfl]
  exact foldl_append_singleton _ _ _

/-- C3, amended: after a successful attach, every path/collection of the
source appears in the destination under the rewritten key (the `/atPath`
prefix with doubled separators collapsed), sharing the very collection
that `GetValue` finds in the source; and the source store is returned
unchanged — not drained. -/
theorem attach_grafts_and_source_unchanged (dest mc : Store) (idf : Str) (pf : Bool)
    (hok : (attach dest mc idf pf).2.2 = true) :
    (attach dest mc idf pf).2.1 = mc ∧
    ∀ kv ∈ mc.fMap.getD [],
      (attachKey idf kv.1, (lookupKey (mapOf mc) kv.1).getD [])
        ∈ mapOf (attach dest mc idf pf).1 := by
  unfold attach at *
  cases hlk : lookupKey (mapOf dest) idf with
  | none =>
    refine ⟨rfl, fun kv hkv => ?_⟩
    rw [attachAdd_mapOf]
    exact List.mem_append_right _ (List.mem_map_of_mem _ hkv)
  | some v =>
    rw [hlk] at hok
    dsimp only at hok ⊢
    by_cases hpf : pf
    · simp only [hpf, Bool.not_true, Bool.false_eq_true, if_false] at hok ⊢
      by_cases hz : (prune dest idf).2 = 0
      · simp [hz] at hok
      · simp only [hz, if_false] at hok ⊢
        refine ⟨by trivial, fun kv hkv => ?_⟩
        rw [attachAdd_mapOf]
        exact List.mem_append_right _ (List.mem_map_of_mem _ hkv)
    · simp only [Bool.not_eq_true] at hpf
      simp [hpf] at hok

/-- C3 witness: at the concrete successful attach of the counterexample
input, the source entry `/A/` reappears in the destination as `/x/A/`
with the same collection, and the source component is the unchanged
source store. -/
theorem attach_grafts_witness :
    (attach ⟨some []⟩ c3Src (str "x/") false).2.2 = true ∧
    (attach ⟨some []⟩ c3Src (str "x/") false).2.1 = c3Src ∧
    (attachKey (str "x/") (str "/A/"), (lookupKey (mapOf c3Src) (str "/A/")).getD [])
      ∈ mapOf (attach ⟨some []⟩ c3Src (str "x/") false).1 := by
  refine ⟨by decide, ?_, ?_⟩
  · exact (attach_grafts_and_source_unchanged ⟨some []⟩ c3Src (str "x/") false (by decide)).1
  · exact (attach_grafts_and_source_unchanged ⟨some []⟩ c3Src (str "x/") false (by decide)).2
      (str "/A/", [c3Payload]) (by decide)

/-- The inner object loop of `getSum` equals the accumulator combination
of the name-filtered list. -/
theorem getSumInner_eq_combineSum (km : List (List Str)) (l : List Payload) :
    ∀ so, getSumInner km l so = combineSum so (l.filter (fun o => nameOK km o.name)) := by
  induction l with
  | nil => intro so; rfl
  | cons o t ih =>
    intro so
    simp only [getSumInner, List.filter_cons]
    cases h : nameOK km o.name with
    | true =>
      simp only [h, if_true, combineSum]
      exact ih _
    | false =>
      simp only [h, Bool.false_eq_true, if_false]
      exact ih so

/-- Combining across an appended list is combining twice. -/
theorem combineSum_append (l1 l2 : List Payload) :
    ∀ so, combineSum so (l1 ++ l2) = combineSum (combineSum so l1) l2 := by
  induction l1 with
  | nil => intro so; rfl
  | cons o t ih => intro so; simp only [List.cons_append, combineSum]; exact ih _

/-- The outer identifier loop of `getSum` equals the combination of the
matched payloads over the remaining entries. -/
theorem getSumAux_eq_combineSum (s : Store) (km : List (List Str))
    (entries : List (Str × List Payload)) :
    ∀ so, getSumAux s km entries so = combineSum so (matchedPayloadsAux s km entries) := by
  induction entries with
  | nil => intro so; rfl
  | cons kv t ih =>
    intro so
    by_cases h : keyLevelOK km kv.1
    · simp only [getSumAux, matchedPayloadsAux, h, if_true, combineSum_append]
      rw [ih, getSumInner_eq_combineSum]
    · simp only [getSumAux, matchedPayloadsAux, h, if_false, List.nil_append]
      exact ih so

/-- Combining from a non-empty accumulator is a left fold of the merge
step. -/
theorem combineSum_some (l : List Payload) :
    ∀ acc, combineSum (some acc) l
      = some (l.foldl (fun a o => (MergeObject a o).1) acc) := by
  induction l with
  | nil => intro acc; rfl
  | cons o t ih => intro acc; simp only [combineSum, List.foldl_cons]; exact ih _

/-- C8, amended: `getSum` combines exactly the stored entries whose
first `groupCount - 1` key levels each belong to the corresponding
alternation group (deeper key levels are not constrained; a path with
fewer decodable levels yields an empty string and fails the membership
test) and whose object name belongs to the final group; the first match
is cloned, later matches are folded in through `MergeObject`, and no
match gives absent. -/
theorem getSum_eq_sumMatchSpec (s : Store) (idPattern : Str) :
    getSum s idPattern = sumMatchSpec s idPattern := by
  unfold getSum sumMatchSpec matchedPayloads
  rw [getSumAux_eq_combineSum]
  cases matchedPayloadsAux s (keyMatrixOf idPattern) (mapOf s) with
  | nil => rfl
  | cons x r =>
    simp only [combineSum]
    exact combineSum_some r x.clone

/-- A non-trivial `buildId` begins with the separator. -/
theorem buildId_head (full : Str) (k : Nat) :
    (buildId full (k + 1)).head? = some '/' := by
  induction k with
  | zero => rfl
  | succ n ih =>
    show (buildId full (n + 1) ++ '/' :: internalDecode full (n + 1)).head? = some '/'
    rw [List.head?_append, ih]
    rfl

/-- The key-path extracted by `getIdentifier` begins with the
separator. -/
theorem getIdentifier_head (full : Str) :
    (getIdentifier full).head? = some '/' := by
  show (buildId full ((countChar full '/' : Int) - 1).toNat ++ ['/']).head? = some '/'
  cases hk : ((countChar full '/' : Int) - 1).toNat with
  | zero => rfl
  | succ n =>
    rw [List.head?_append, buildId_head]
    rfl

/-- The key-path extracted by `getIdentifier` ends with the separator. -/
theorem getIdentifier_last (full : Str) :
    (getIdentifier full).getLast? = some '/' := by
  unfold getIdentifier
  exact List.getLast?_concat _

/-- `getIdentifier` is a fixed point of the identifier normalisation of
the two-argument `getObject`. -/
theorem normalizeIdent_getIdentifier (full : Str) :
    normalizeIdent (getIdentifier full) = getIdentifier full := by
  unfold normalizeIdent
  have hne : getIdentifier full ≠ [] := by
    intro h
    have := getIdentifier_last full
    rw [h] at this
    exact Option.noConfusion this
  rw [if_neg hne, if_pos (getIdentifier_head full), if_pos (getIdentifier_last full)]

/-- For an identifier with at least one separator, `getObject` resolves
through the key-path and object name extracted by the codec. -/
theorem getObject_decomposed (s : Store) (full : Str)
    (h : 1 ≤ countChar full '/') :
    getObject s full = internalObject s (getIdentifier full) (getObjectName full) := by
  unfold getObject getObjectAt
  rw [if_neg (by omega), normalizeIdent_getIdentifier]

/-- Removing an element that is in the list succeeds and returns it. -/
theorem removeObjFromList_mem (l : List Payload) (obj : Payload) (h : obj ∈ l) :
    (removeObjFromList l obj).2 = some obj := by
  induction l with
  | nil => cases h
  | cons x t ih =>
    by_cases hx : x = obj
    · simp [removeObjFromList, hx]
    · have : obj ∈ t := by
        cases h with
        | head => exact absurd rfl hx
        | tail _ ht => exact ht
      simp [removeObjFromList, hx, ih this]

/-- A successful name lookup returns an object carrying that name. -/
theorem findByName_name (l : List Payload) (nm : Str) (o : Payload)
    (h : findByName l nm = some o) : o.name = nm := by
  have hp := List.find?_some h
  simpa using hp

/-- A successful name lookup returns a member of the list. -/
theorem findByName_mem (l : List Payload) (nm : Str) (o : Payload)
    (h : findByName l nm = some o) : o ∈ l :=
  List.mem_of_find?_eq_some h

/-- After removing the object a name lookup found, no object of that
name remains — names being unique in the list. -/
theorem findByName_remove_none (l : List Payload) (nm : Str) (obj : Payload)
    (hnd : (l.map Payload.name).Nodup)
    (hf : findByName l nm = some obj) :
    findByName (removeObjFromList l obj).1 nm = none := by
  induction l with
  | nil => cases hf
  | cons x t ih =>
    rw [List.map_cons, List.nodup_cons] at hnd
    by_cases hx : x.name = nm
    · have hxo : x = obj := by
        unfold findByName at hf
        rw [List.find?_cons_of_pos _ (by simpa using hx)] at hf
        exact Option.some.inj hf
      subst hxo
      simp only [removeObjFromList, if_pos rfl]
      have : nm ∉ t.map Payload.name := by rw [← hx]; exact hnd.1
      unfold findByName
      rw [List.find?_eq_none]
      intro o ho hbeq
      exact this (by
        have : o.name = nm := by simpa using hbeq
        rw [← this]
        exact List.mem_map_of_mem _ ho)
    · have hfT : findByName t nm = some obj := by
        unfold findByName at hf ⊢
        rwa [List.find?_cons_of_neg _ (by simpa using hx)] at hf
      have hxobj : x ≠ obj := by
        intro e
        exact hx (by rw [e, findByName_name t nm obj hfT])
      simp only [removeObjFromList, if_neg hxobj]
      unfold findByName
      rw [List.find?_cons_of_neg _ (by simpa using hx)]
      exact ih hnd.2 hfT

/-- Removing an object of a different name does not change a name
lookup. -/
theorem findByName_remove_other (l : List Payload) (nm nm2 : Str) (obj : Payload)
    (hf : findByName l nm = some obj) (hne : nm2 ≠ nm) :
    findByName (removeObjFromList l obj).1 nm2 = findByName l nm2 := by
  induction l with
  | nil => cases hf
  | cons x t ih =>
    by_cases hx : x = obj
    · subst hx
      have hxn : x.name = nm := findByName_name _ _ _ hf
      have hrm : removeObjFromList (x :: t) x = (t, some x) := by
        simp [removeObjFromList]
      rw [hrm]
      unfold findByName
      rw [List.find?_cons_of_neg _ (by
        simp only [hxn, beq_iff_eq]
        exact fun e => hne e.symm)]
    · simp only [removeObjFromList, if_neg hx]
      by_cases hx2 : x.name = nm2
      · unfold findByName
        rw [List.find?_cons_of_pos _ (by simpa using hx2),
          List.find?_cons_of_pos _ (by simpa using hx2)]
      · have hfT : findByName t nm = some obj := by
          unfold findByName at hf
          rcases hxn : (x.name == nm) with _ | _
          · rwa [List.find?_cons_of_neg _ (by simp [hxn])] at hf
          · rw [List.find?_cons_of_pos _ (by simp [hxn])] at hf
            exact absurd (Option.some.inj hf) hx
        unfold findByName
        rw [List.find?_cons_of_neg _ (by simpa using hx2),
          List.find?_cons_of_neg _ (by simpa using hx2)]
        exact ih hfT

/-- Updating a present key changes exactly its value. -/
theorem updateKey_lookup_same (m : List (Str × List Payload)) (k : Str)
    (v l : List Payload) (h : lookupKey m k = some l) :
    lookupKey (updateKey m k v) k = some v := by
  induction m with
  | nil => cases h
  | cons kv t ih =>
    cases hk : (kv.1 == k) with
    | true =>
      simp only [updateKey, hk, if_true]
      unfold lookupKey
      rw [List.find?_cons_of_pos _ (by exact hk)]
      rfl
    | false =>
      unfold lookupKey at h ⊢
      rw [List.find?_cons_of_neg _ (by simp [hk])] at h
      simp only [updateKey, hk, Bool.false_eq_true, if_false]
      rw [List.find?_cons_of_neg _ (by simp [hk])]
      exact ih h

/-- Updating one key leaves lookups of every other key unchanged. -/
theorem updateKey_lookup_other (m : List (Str × List Payload)) (k k2 : Str)
    (v : List Payload) (hne : k2 ≠ k) :
    lookupKey (updateKey m k v) k2 = lookupKey m k2 := by
  induction m with
  | nil => rfl
  | cons kv t ih =>
    cases hk : (kv.1 == k) with
    | true =>
      have hkk : kv.1 = k := by simpa using hk
      have hne2 : (kv.1 == k2) = false := by
        simp only [beq_eq_false_iff_ne, ne_eq, hkk]
        exact fun e => hne e.symm
      simp only [updateKey, hk, if_true]
      unfold lookupKey
      rw [List.find?_cons_of_neg _ (by simp [hne2]),
        List.find?_cons_of_neg _ (by simp [hne2])]
    | false =>
      simp only [updateKey, hk, Bool.false_eq_true, if_false]
      cases hk2 : (kv.1 == k2) with
      | true =>
        unfold lookupKey
        rw [List.find?_cons_of_pos _ (by exact hk2),
          List.find?_cons_of_pos _ (by exact hk2)]
      | false =>
        unfold lookupKey
        rw [List.find?_cons_of_neg _ (by simp [hk2]),
          List.find?_cons_of_neg _ (by simp [hk2])]
        exact ih

/-- Updating a key preserves the number of map entries. -/
theorem updateKey_length (m : List (Str × List Payload)) (k : Str)
    (v : List Payload) : (updateKey m k v).length = m.length := by
  induction m with
  | nil => rfl
  | cons kv t ih =>
    by_cases hk : kv.1 = k
    · simp [updateKey, hk]
    · simp [updateKey, hk, ih]

/-- C7, amended: for a full identifier that contains a separator and is
present (its key-path holds a collection with unique names and the name
lookup finds the object), `remove` returns the object, removes only it —
a subsequent `get` of the identifier is absent while lookups of every
other key and of every other name at the same path are unchanged — and
never removes the path entry: `numberOfKeys` is unchanged.  (For a
slashless identifier naming a top-level object, `remove` derives the key
`/`, not the empty key, and removes nothing.) -/
theorem remove_removes_only_named_object
    (m : List (Str × List Payload)) (full : Str) (l : List Payload) (obj : Payload)
    (hsl : 1 ≤ countChar full '/')
    (hl : lookupKey m (getIdentifier full) = some l)
    (hnd : (l.map Payload.name).Nodup)
    (hf : findByName l (getObjectName full) = some obj) :
    (remove ⟨some m⟩ full).2 = some obj ∧
    getObject (remove ⟨some m⟩ full).1 full = none ∧
    numberOfKeys (remove ⟨some m⟩ full).1 = numberOfKeys ⟨some m⟩ ∧
    (∀ k, k ≠ getIdentifier full →
      lookupKey (mapOf (remove ⟨some m⟩ full).1) k = lookupKey m k) ∧
    (∀ nm, nm ≠ getObjectName full →
      internalObject (remove ⟨some m⟩ full).1 (getIdentifier full) nm
        = internalObject ⟨some m⟩ (getIdentifier full) nm) := by
  have hget : getObject ⟨some m⟩ full = some obj := by
    rw [getObject_decomposed _ _ hsl]
    simp only [internalObject, hl, hf]
  have hrm2 : (removeObjFromList l obj).2 = some obj :=
    removeObjFromList_mem l obj (findByName_mem _ _ _ hf)
  have hremove : remove ⟨some m⟩ full
      = (⟨some (updateKey m (getIdentifier full) (removeObjFromList l obj).1)⟩,
          some obj) := by
    unfold remove
    simp only [mapOf, Option.getD_some, hl, hget, hrm2]
  refine ⟨by rw [hremove], ?_, ?_, ?_, ?_⟩
  · rw [hremove, getObject_decomposed _ _ hsl]
    simp only [internalObject,
      updateKey_lookup_same m (getIdentifier full) (removeObjFromList l obj).1 l hl,
      findByName_remove_none l (getObjectName full) obj hnd hf]
  · rw [hremove]
    simp [numberOfKeys, updateKey_length]
  · intro k hkne
    rw [hremove]
    exact updateKey_lookup_other m (getIdentifier full) k _ hkne
  · intro nm hnm
    rw [hremove]
    simp only [internalObject,
      updateKey_lookup_same m (getIdentifier full) (removeObjFromList l obj).1 l hl,
      hl, findByName_remove_other l (getObjectName full) nm obj hf hnm]

/-- C7 witness: removing `/A/h` from the store holding exactly that
object returns the payload, empties its collection without touching the
path entry, and the identifier thereafter resolves to absent. -/
theorem remove_removes_only_named_object_witness :
    (1 ≤ countChar (str "/A/h") '/' ∧
      lookupKey [(str "/A/", [c7Payload])] (getIdentifier (str "/A/h"))
        = some [c7Payload] ∧
      ([c7Payload].map Payload.name).Nodup ∧
      findByName [c7Payload] (getObjectName (str "/A/h")) = some c7Payload) ∧
    (remove c7Store (str "/A/h")).2 = some c7Payload ∧
    getObject (remove c7Store (str "/A/h")).1 (str "/A/h") = none ∧
    numberOfKeys (remove c7Store (str "/A/h")).1 = numberOfKeys c7Store :=
  ⟨⟨by decide, by decide, by decide, by decide⟩,
    (remove_removes_only_named_object [(str "/A/", [c7Payload])] (str "/A/h")
      [c7Payload] c7Payload (by decide) (by decide) (by decide) (by decide)).1,
    (remove_removes_only_named_object [(str "/A/", [c7Payload])] (str "/A/h")
      [c7Payload] c7Payload (by decide) (by decide) (by decide) (by decide)).2.1,
    (remove_removes_only_named_object [(str "/A/", [c7Payload])] (str "/A/h")
      [c7Payload] c7Payload (by decide) (by decide) (by decide) (by decide)).2.2.1⟩

/-- Scanning an appended string collects the positions of the first part
and then those of the second, offset by the first part's length. -/
theorem slashPosAux_append (a b : Str) :
    ∀ i, slashPosAux (a ++ b) i = slashPosAux a i ++ slashPosAux b (i + a.length) := by
  induction a with
  | nil => intro i; simp [slashPosAux]
  | cons c t ih =>
    intro i
    by_cases hc : c = '/'
    · simp only [List.cons_append, slashPosAux, if_pos hc, List.length_cons, List.append_eq]
      rw [ih (i + 1), show i + 1 + t.length = i + (t.length + 1) by omega]
    · simp only [List.cons_append, slashPosAux, if_neg hc, List.length_cons, List.append_eq]
      rw [ih (i + 1), show i + 1 + t.length = i + (t.length + 1) by omega]

/-- A separator-free string contributes no positions. -/
theorem slashPosAux_nil_of_slashFree (s : Str) (h : '/' ∉ s) :
    ∀ i, slashPosAux s i = [] := by
  induction s with
  | nil => intro i; rfl
  | cons c t ih =>
    intro i
    have hc : c ≠ '/' := fun e => h (by rw [e]; exact List.mem_cons_self _ _)
    have ht : '/' ∉ t := fun e => h (List.mem_cons_of_mem _ e)
    simp only [slashPosAux, if_neg (fun e => hc e), ih ht]

/-- Shifting the scanning offset shifts every collected position. -/
theorem slashPosAux_shift (s : Str) :
    ∀ j k, slashPosAux s (j + k) = (slashPosAux s j).map (fun p => p + k) := by
  induction s with
  | nil => intro j k; rfl
  | cons c t ih =>
    intro j k
    by_cases hc : c = '/'
    · simp only [slashPosAux, if_pos hc, List.map_cons]
      rw [show j + k + 1 = (j + 1) + k by omega, ih (j + 1) k]
    · simp only [slashPosAux, if_neg hc]
      rw [show j + k + 1 = (j + 1) + k by omega, ih (j + 1) k]

/-- Shape of the slash positions of a canonical-form identifier
`/s/t` with a separator-free first segment. -/
theorem slashPositions_shape (s t : Str) (hs : '/' ∉ s) :
    slashPositions ('/' :: (s ++ '/' :: t))
      = 0 :: (s.length + 1)
          :: (slashPosAux t 1).map (fun p => p + (s.length + 1)) := by
  unfold slashPositions
  show slashPosAux ('/' :: (s ++ '/' :: t)) 0 = _
  rw [show slashPosAux ('/' :: (s ++ '/' :: t)) 0
      = 0 :: slashPosAux (s ++ '/' :: t) 1 by simp [slashPosAux]]
  rw [slashPosAux_append s ('/' :: t) 1, slashPosAux_nil_of_slashFree s hs 1]
  rw [show slashPosAux ('/' :: t) (1 + s.length)
      = (1 + s.length) :: slashPosAux t (1 + s.length + 1) by simp [slashPosAux]]
  rw [show 1 + s.length + 1 = 1 + (s.length + 1) by omega, slashPosAux_shift t 1 (s.length + 1)]
  simp [Nat.add_comm]

/-- Shape of the slash positions of a tail-form identifier `/t`. -/
theorem slashPositions_tail (t : Str) :
    slashPositions ('/' :: t) = 0 :: slashPosAux t 1 := by
  unfold slashPositions
  simp [slashPosAux]

/-- `getD` on a shifted position list adds the shift. -/
theorem getD_map_add (L : List Nat) (S : Nat) :
    ∀ k, k < L.length → (L.map (fun p => p + S)).getD k 0 = L.getD k 0 + S := by
  induction L with
  | nil => intro k hk; cases hk
  | cons a t ih =>
    intro k hk
    cases k with
    | zero => simp
    | succ n =>
      simp only [List.map_cons, List.getD_cons_succ]
      exact ih n (by simpa using hk)

/-- Position lookup in the canonical-shape list, in terms of the
tail-shape list. -/
theorem getD_shape (L : List Nat) (S : Nat) :
    ∀ j, j ≤ L.length →
      (0 :: S :: L.map (fun p => p + S)).getD (j + 1) 0 = (0 :: L).getD j 0 + S := by
  intro j hj
  cases j with
  | zero => simp
  | succ k =>
    simp only [List.getD_cons_succ]
    exact getD_map_add L S k (by omega)

/-- Decoding index 0 of a canonical-form identifier yields the first
segment. -/
theorem internalDecode_zero (s t : Str) (hs : '/' ∉ s) :
    internalDecode ('/' :: (s ++ '/' :: t)) 0 = s := by
  unfold internalDecode
  rw [if_neg (fun h => h.2 rfl), slashPositions_shape s t hs]
  rw [if_neg (by
    simp only [List.length_cons]
    push_cast
    omega)]
  rw [if_neg (by omega)]
  simp only [Int.toNat_zero, List.getD_cons_zero, List.getD_cons_succ, Nat.zero_add,
    List.drop_succ_cons, List.drop_zero, Nat.sub_zero, Nat.add_sub_cancel]
  exact List.take_left s ('/' :: t)

/-- For an identifier beginning with the separator, the malformed-guard
of `internalDecode` passes and the body applies. -/
theorem internalDecode_slash_guard (idf : Str) (index : Int) :
    internalDecode ('/' :: idf) index
      = (if index ≥ ((slashPositions ('/' :: idf)).length : Int) - 1 then []
        else if index < 0 then
          match (slashPositions ('/' :: idf)).getLast? with
          | some p => ('/' :: idf).drop (p + 1)
          | none => []
        else
          (('/' :: idf).drop
              ((slashPositions ('/' :: idf)).getD index.toNat 0 + 1)).take
            ((slashPositions ('/' :: idf)).getD (index.toNat + 1) 0
              - (slashPositions ('/' :: idf)).getD index.toNat 0 - 1)) := by
  unfold internalDecode
  rw [if_neg (fun h => h.2 rfl)]

/-- Decoding index `i + 1` of a canonical-form identifier skips the
first segment. -/
theorem internalDecode_succ (s t : Str) (hs : '/' ∉ s) (i : Nat) :
    internalDecode ('/' :: (s ++ '/' :: t)) ((i : Int) + 1)
      = internalDecode ('/' :: t) (i : Int) := by
  rw [internalDecode_slash_guard (s ++ '/' :: t) ((i : Int) + 1),
    internalDecode_slash_guard t (i : Int),
    slashPositions_shape s t hs, slashPositions_tail t]
  simp only [List.length_cons, List.length_map]
  by_cases hn : i < (slashPosAux t 1).length
  · have c1 : ¬ ((i : Int) + 1 ≥ (((slashPosAux t 1).length + 1 + 1 : Nat) : Int) - 1) := by
      push_cast
      omega
    have c2 : ¬ ((i : Int) ≥ (((slashPosAux t 1).length + 1 : Nat) : Int) - 1) := by
      push_cast
      omega
    rw [if_neg c1, if_neg c2, if_neg (by omega : ¬ ((i : Int) + 1 < 0)),
      if_neg (by omega : ¬ ((i : Int) < 0))]
    have ht1 : ((i : Int) + 1).toNat = i + 1 := by omega
    have ht2 : ((i : Int)).toNat = i := by omega
    rw [ht1, ht2]
    rw [getD_shape (slashPosAux t 1) (s.length + 1) i (by omega),
      getD_shape (slashPosAux t 1) (s.length + 1) (i + 1) (by omega)]
    have e1 : (0 :: slashPosAux t 1).getD (i + 1) 0 + (s.length + 1)
          - ((0 :: slashPosAux t 1).getD i 0 + (s.length + 1)) - 1
        = (0 :: slashPosAux t 1).getD (i + 1) 0
          - (0 :: slashPosAux t 1).getD i 0 - 1 := by
      omega
    have e2 : (0 :: slashPosAux t 1).getD i 0 + (s.length + 1) + 1
        = ('/' :: s).length + ((0 :: slashPosAux t 1).getD i 0 + 1) := by
      simp only [List.length_cons]
      omega
    rw [e1, show ('/' :: (s ++ '/' :: t)) = ('/' :: s) ++ ('/' :: t) from rfl, e2,
      List.drop_append ((0 :: slashPosAux t 1).getD i 0 + 1)]
  · have c1 : (i : Int) + 1 ≥ (((slashPosAux t 1).length + 1 + 1 : Nat) : Int) - 1 := by
      push_cast
      omega
    have c2 : (i : Int) ≥ (((slashPosAux t 1).length + 1 : Nat) : Int) - 1 := by
      push_cast
      omega
    rw [if_pos c1, if_pos c2]

/-- A doubled separator is never a prefix of a string without adjacent
separators. -/
theorem noDS_doubled_not_ahead (a : Char) (rest : Str)
    (h : noDoubleSlash (a :: rest) = true) :
    (str "//").isPrefixOf (a :: rest) = false := by
  cases rest with
  | nil =>
    show List.isPrefixOf ['/', '/'] [a] = false
    simp [List.isPrefixOf]
  | cons b t =>
    show List.isPrefixOf ['/', '/'] (a :: b :: t) = false
    unfold noDoubleSlash at h
    have hab : (a == '/' && b == '/') = false := by
      cases hq : (a == '/' && b == '/') with
      | false => rfl
      | true =>
        rw [hq] at h
        simp at h
    cases hA : ('/' == a) with
    | false => simp [List.isPrefixOf, hA]
    | true =>
      cases hB : ('/' == b) with
      | false => simp [List.isPrefixOf, hA, hB]
      | true =>
        exfalso
        have ea : (a == '/') = true := by
          have : a = '/' := (beq_iff_eq.mp hA).symm
          simp [this]
        have eb : (b == '/') = true := by
          have : b = '/' := (beq_iff_eq.mp hB).symm
          simp [this]
        rw [ea, eb] at hab
        simp at hab

/-- The tail of a string without adjacent separators is itself without
adjacent separators. -/
theorem noDS_tail (a : Char) (rest : Str) (h : noDoubleSlash (a :: rest) = true) :
    noDoubleSlash rest = true := by
  cases rest with
  | nil => rfl
  | cons b t =>
    unfold noDoubleSlash at h
    exact (Bool.and_elim_right h)

/-- On a string without adjacent separators, collapsing `//` into `/`
changes nothing. -/
theorem replaceAllFuel_noDS (fuel : Nat) :
    ∀ s : Str, noDoubleSlash s = true →
      replaceAllFuel (str "//") (str "/") fuel s = s := by
  induction fuel with
  | zero => intro s _; rfl
  | succ n ih =>
    intro s h
    cases s with
    | nil => rfl
    | cons a rest =>
      unfold replaceAllFuel
      rw [if_neg (by
        rw [noDS_doubled_not_ahead a rest h]
        simp)]
      rw [ih rest (noDS_tail a rest h)]

/-- `ReplaceAll("//", "/")` is the identity on a string without adjacent
separators. -/
theorem replaceAll_noDS (s : Str) (h : noDoubleSlash s = true) :
    replaceAll (str "//") (str "/") s = s :=
  replaceAllFuel_noDS s.length s h

/-- Appending a separator-free string in front preserves freedom from
adjacent separators. -/
theorem noDS_append : ∀ (s : Str), '/' ∉ s →
    ∀ r, noDoubleSlash r = true → noDoubleSlash (s ++ r) = true := by
  intro s
  induction s with
  | nil => intro _ r hr; simpa
  | cons a s' ih =>
    intro hs r hr
    have ha : (a == '/') = false := by
      simp only [beq_eq_false_iff_ne, ne_eq]
      exact fun e => hs (by rw [e]; exact List.mem_cons_self _ _)
    have hs' : '/' ∉ s' := fun e => hs (List.mem_cons_of_mem _ e)
    cases s' with
    | nil =>
      cases r with
      | nil => rfl
      | cons b rt =>
        show noDoubleSlash (a :: b :: rt) = true
        unfold noDoubleSlash
        rw [ha]
        simpa using hr
    | cons c s'' =>
      show noDoubleSlash (a :: c :: (s'' ++ r)) = true
      unfold noDoubleSlash
      rw [ha]
      simpa using ih hs' r hr

/-- Prepending a separator to a string that does not begin with one
preserves freedom from adjacent separators. -/
theorem noDS_slash_cons (X : Str) (hX : noDoubleSlash X = true)
    (hh : X.head? ≠ some '/') :
    noDoubleSlash ('/' :: X) = true := by
  cases X with
  | nil => rfl
  | cons b t =>
    have hb : (b == '/') = false := by
      cases hq : (b == '/') with
      | false => rfl
      | true =>
        exfalso
        have : b = '/' := beq_iff_eq.mp hq
        exact hh (by rw [this]; rfl)
    unfold noDoubleSlash
    rw [hb]
    simpa using hX

/-- Unfolding equation for `joinSegments` on two or more segments. -/
theorem joinSegments_cons_cons (s u : Str) (t : List Str) :
    joinSegments (s :: u :: t) = s ++ '/' :: joinSegments (u :: t) := rfl

/-- The joined segments of a non-empty list with a non-empty head is
non-empty. -/
theorem joinSegments_ne_nil (s : Str) (t : List Str) (hs : s ≠ []) :
    joinSegments (s :: t) ≠ [] := by
  cases t with
  | nil => simpa [joinSegments]
  | cons u t' =>
    rw [joinSegments_cons_cons]
    cases s with
    | nil => exact absurd rfl hs
    | cons a s0 => simp

/-- The joined segments start with the first segment's first
character. -/
theorem joinSegments_head (s : Str) (t : List Str) (hs : s ≠ []) :
    (joinSegments (s :: t)).head? = s.head? := by
  cases t with
  | nil => rfl
  | cons u t' =>
    rw [joinSegments_cons_cons, List.head?_append]
    cases s with
    | nil => exact absurd rfl hs
    | cons a s0 => rfl

/-- The joined valid segments never end with the separator. -/
theorem joinSegments_getLast_ne (ss : List Str) (h : ∀ s ∈ ss, validSegment s)
    (hne : ss ≠ []) : (joinSegments ss).getLast? ≠ some '/' := by
  induction ss with
  | nil => exact absurd rfl hne
  | cons s t ih =>
    cases t with
    | nil =>
      show s.getLast? ≠ some '/'
      intro hc
      exact (h s (List.mem_cons_self _ _)).2 (List.mem_of_getLast?_eq_some hc)
    | cons u t' =>
      rw [joinSegments_cons_cons]
      have hu : joinSegments (u :: t') ≠ [] :=
        joinSegments_ne_nil u t' (h u (by simp)).1
      rw [List.getLast?_append_of_ne_nil _ (by simp : '/' :: joinSegments (u :: t') ≠ [])]
      rw [show ('/' :: joinSegments (u :: t')) = ['/'] ++ joinSegments (u :: t') from rfl,
        List.getLast?_append_of_ne_nil _ hu]
      exact ih (fun x hx => h x (List.mem_cons_of_mem _ hx)) (by simp)

/-- The joined valid segments never begin with the separator. -/
theorem joinSegments_head_ne (ss : List Str) (h : ∀ s ∈ ss, validSegment s)
    (hne : ss ≠ []) : (joinSegments ss).head? ≠ some '/' := by
  cases ss with
  | nil => exact absurd rfl hne
  | cons s t =>
    rw [joinSegments_head s t (h s (List.mem_cons_self _ _)).1]
    cases hs : s with
    | nil => exact absurd hs (h _ (List.mem_cons_self _ _)).1
    | cons a s0 =>
      intro hc
      refine (h _ (List.mem_cons_self _ _)).2 ?_
      rw [hs]
      have : a = '/' := by simpa using hc
      rw [this]
      exact List.mem_cons_self _ _

/-- The joined valid segments, wrapped in leading and trailing
separators, carry no adjacent separators. -/
theorem noDS_canonical (ss : List Str) (h : ∀ s ∈ ss, validSegment s)
    (hne : ss ≠ []) :
    noDoubleSlash ('/' :: (joinSegments ss ++ ['/'])) = true := by
  have key : ∀ (l : List Str), (∀ s ∈ l, validSegment s) →
      noDoubleSlash (joinSegments l ++ ['/']) = true := by
    intro l
    induction l with
    | nil => intro _; rfl
    | cons s t ih =>
      intro hl
      cases t with
      | nil => exact noDS_append s (hl s (List.mem_cons_self _ _)).2 ['/'] rfl
      | cons u t' =>
        rw [joinSegments_cons_cons, List.append_assoc, List.cons_append]
        refine noDS_append s (hl s (List.mem_cons_self _ _)).2 _ ?_
        refine noDS_slash_cons _ (ih (fun x hx => hl x (List.mem_cons_of_mem _ hx))) ?_
        rw [List.head?_append, joinSegments_head u t' (hl u (by simp)).1]
        cases hu : u with
        | nil => exact absurd hu (by simpa using (hl u (by simp)).1)
        | cons b u0 =>
          intro hc
          refine (hl u (by simp)).2 ?_
          rw [hu]
          have : b = '/' := by simpa using hc
          rw [this]
          exact List.mem_cons_self _ _
  refine noDS_slash_cons _ (key ss h) ?_
  cases ss with
  | nil => exact absurd rfl hne
  | cons s t =>
    rw [List.head?_append, joinSegments_head s t (h s (List.mem_cons_self _ _)).1]
    cases hs : s with
    | nil => exact absurd hs (by simpa using (h s (List.mem_cons_self _ _)).1)
    | cons a s0 =>
      intro hc
      refine (h s (List.mem_cons_self _ _)).2 ?_
      rw [hs]
      have : a = '/' := by simpa using hc
      rw [this]
      exact List.mem_cons_self _ _

/-- On joined valid segments, `correctIdentifier` produces exactly the
canonical path: leading separator, the joined segments, trailing
separator. -/
theorem correctIdentifier_joinSegments (ss : List Str) (hne : ss ≠ [])
    (h : ∀ s ∈ ss, validSegment s) :
    correctIdentifier (joinSegments ss) = '/' :: (joinSegments ss ++ ['/']) := by
  obtain ⟨s, t, rfl⟩ : ∃ s t, ss = s :: t := by
    cases ss with
    | nil => exact absurd rfl hne
    | cons s t => exact ⟨s, t, rfl⟩
  have hs1 : s ≠ [] := (h s (List.mem_cons_self _ _)).1
  unfold correctIdentifier
  rw [if_neg (joinSegments_ne_nil s t hs1)]
  rw [if_neg (joinSegments_getLast_ne (s :: t) h (by simp))]
  show replaceAll (str "//") (str "/")
      (if (joinSegments (s :: t) ++ ['/']).head? = some '/'
        then joinSegments (s :: t) ++ ['/']
        else '/' :: (joinSegments (s :: t) ++ ['/']))
    = '/' :: (joinSegments (s :: t) ++ ['/'])
  rw [if_neg (by
    rw [List.head?_append, joinSegments_head s t hs1]
    cases hs : s with
    | nil => exact absurd hs hs1
    | cons a s0 =>
      intro hc
      refine (h s (List.mem_cons_self _ _)).2 ?_
      rw [hs]
      have : a = '/' := by simpa using hc
      rw [this]
      exact List.mem_cons_self _ _)]
  exact replaceAll_noDS _ (noDS_canonical (s :: t) h (by simp))

/-- Decoding each index of the canonical path recovers the
corresponding segment. -/
theorem decode_canonical (ss : List Str) :
    (∀ s ∈ ss, validSegment s) →
    ∀ i : Nat, i < ss.length →
      internalDecode ('/' :: (joinSegments ss ++ ['/'])) (i : Int) = ss.getD i [] := by
  induction ss with
  | nil =>
    intro _ i hi
    simp at hi
  | cons s t ih =>
    intro h i hi
    have hs := h s (List.mem_cons_self _ _)
    cases t with
    | nil =>
      have hi0 : i = 0 := by simpa using hi
      subst hi0
      have base := internalDecode_zero s [] hs.2
      exact base
    | cons u t' =>
      have hrw : ('/' :: (joinSegments (s :: u :: t') ++ ['/']))
          = '/' :: (s ++ '/' :: (joinSegments (u :: t') ++ ['/'])) := by
        rw [joinSegments_cons_cons, List.append_assoc, List.cons_append]
      rw [hrw]
      cases i with
      | zero =>
        exact internalDecode_zero s (joinSegments (u :: t') ++ ['/']) hs.2
      | succ k =>
        have step := internalDecode_succ s (joinSegments (u :: t') ++ ['/']) hs.2 k
        have tail := ih (fun x hx => h x (List.mem_cons_of_mem _ hx)) k
          (by simpa using hi)
        calc internalDecode ('/' :: (s ++ '/' :: (joinSegments (u :: t') ++ ['/'])))
              ((k + 1 : Nat) : Int)
            = internalDecode ('/' :: (joinSegments (u :: t') ++ ['/'])) (k : Int) := step
          _ = (u :: t').getD k [] := tail
          _ = (s :: u :: t').getD (k + 1) [] := (List.getD_cons_succ).symm

/-- C5: for every sequence of valid key segments (non-empty, free of
the separator), canonicalising the separator-joined segments with
`correctIdentifier` and then decoding the canonical path with
`internalDecode` at each index recovers the original segments
exactly. -/
theorem canonicalize_decode_roundtrip (ss : List Str)
    (h : ∀ s ∈ ss, validSegment s) (i : Nat) (hi : i < ss.length) :
    internalDecode (correctIdentifier (joinSegments ss)) (i : Int) = ss.getD i [] := by
  have hne : ss ≠ [] := by
    intro e
    subst e
    simp at hi
  rw [correctIdentifier_joinSegments ss hne h]
  exact decode_canonical ss h i hi

/-- C5 witness: the canonical path of the segments `DET`, `B` decodes
back to them at indices 0 and 1. -/
theorem canonicalize_decode_roundtrip_witness :
    ((∀ s ∈ [str "DET", str "B"], validSegment s) ∧ 0 < 2 ∧ 1 < 2) ∧
    internalDecode (correctIdentifier (joinSegments [str "DET", str "B"])) ((0 : Nat) : Int)
      = str "DET" ∧
    internalDecode (correctIdentifier (joinSegments [str "DET", str "B"])) ((1 : Nat) : Int)
      = str "B" :=
  ⟨⟨by decide, by decide, by decide⟩,
    canonicalize_decode_roundtrip [str "DET", str "B"] (by decide) 0 (by decide),
    canonicalize_decode_roundtrip [str "DET", str "B"] (by decide) 1 (by decide)⟩
